import Mathlib

/-!
Miyomi: the metadata refresh job and the love button.

A shallow embedding of

* `scripts/update-app-meta.mjs` (`extractRepo`, `fetchReleases`, `calculateDownloads`,
  `getLatestReleaseDate`, and the two loops of `main`),
* `scripts/update-downloads.mjs` (`extractRepo`, `calculateDownloads`),
* `src/components/LoveButton.tsx` (`handleToggle` and the effects around it),

followed by the properties proved about them.

Conventions.  Text is a list of characters (`Str`).  Download counts are natural numbers and
the displayed vote count is an integer.  A JavaScript value that may be `null` or `undefined`
is an `Option`.  What the platform provides (`new URL`, `new Date(..).getTime()`, the
releases endpoint) is a parameter of the function that uses it.
-/

namespace Miyomi

/-- Text, as the sequence of its characters. -/
abbrev Str := List Char

/-! ## Text and arrays as the scripts use them -/

/-- The call `s.split(sep)` for a separator of one character: the pieces between the
separators, in order; text without the separator (the empty text too) gives one piece. -/
def split (sep : Char) : Str → List Str
  | [] => [[]]
  | c :: cs =>
    if c = sep then [] :: split sep cs
    else
      match split sep cs with
      | [] => [[c]]
      | piece :: pieces => (c :: piece) :: pieces

/-- The call `s.includes(needle)`: some position of `s` starts with `needle`. -/
def includes (s needle : Str) : Bool :=
  s.tails.any (fun t => needle.isPrefixOf t)

/-- JavaScript truthiness of a value that is `null`/`undefined` or text: present and not
empty. -/
def truthy : Option Str → Bool
  | none => false
  | some s => !s.isEmpty

/-- Insertion of `a` in front of the first element it does not have to follow
(`compareFn(a, b) <= 0`); a comparison that gives `NaN` (`none`) counts as `+0`. -/
def insertSorted {α : Type} (compareFn : α → α → Option Int) (a : α) : List α → List α
  | [] => [a]
  | b :: l =>
    if (compareFn a b).getD 0 ≤ 0 then a :: b :: l else b :: insertSorted compareFn a l

/-- The call `array.sort(compareFn)`: a stable sort, here by insertion from the right, so
that of two elements that compare as equal the one that came first stays first. -/
def sort {α : Type} (compareFn : α → α → Option Int) : List α → List α
  | [] => []
  | a :: l => insertSorted compareFn a (sort compareFn l)

/-! ## The platform's URL parser -/

/-- The two properties of a parsed `URL` the scripts read. -/
structure URL where
  hostname : Str
  pathname : Str
  deriving DecidableEq, Repr

/-- A parser for the plain form `https://host/path`, standing in for `new URL` in examples:
the host is the text up to the first `/`, the path is the rest (`/` when there is none), and
any other text is refused.  Theorems take the parser as a parameter. -/
def plainURL (url : Str) : Option URL :=
  if "https://".toList.isPrefixOf url then
    let rest := url.drop 8
    let host := rest.takeWhile (fun c => c != '/')
    let path := rest.dropWhile (fun c => c != '/')
    if host.isEmpty then none
    else some { hostname := host, pathname := if path.isEmpty then ['/'] else path }
  else none

/-! ## The platform's clock -/

def digit (c : Char) : Option Nat :=
  if c.isDigit then some (c.toNat - 48) else none

def twoDigits (a b : Char) : Option Nat := do
  let x ← digit a
  let y ← digit b
  pure (x * 10 + y)

/-- Days from 1970-01-01 to the given day of the proleptic Gregorian calendar. -/
def daysFromCivil (y m d : Nat) : Int :=
  let y1 : Int := if m ≤ 2 then (y : Int) - 1 else y
  let era : Int := y1 / 400
  let yoe : Int := y1 - era * 400
  let mp : Int := if m ≤ 2 then (m : Int) + 9 else (m : Int) - 3
  let doy : Int := (153 * mp + 2) / 5 + (d : Int) - 1
  let doe : Int := yoe * 365 + yoe / 4 - yoe / 100 + doy
  era * 146097 + doe - 719468

/-- Milliseconds since the epoch of a timestamp written `YYYY-MM-DDTHH:MM:SSZ`, the form the
releases endpoint uses; `none` (an invalid date) for any other text.  It stands in for
`new Date(s).getTime()` in examples; theorems take the clock as a parameter. -/
def isoTime : Str → Option Int
  | [y1, y2, y3, y4, s1, m1, m2, s2, d1, d2, t, h1, h2, c1, n1, n2, c2, e1, e2, z] =>
    if s1 = '-' ∧ s2 = '-' ∧ t = 'T' ∧ c1 = ':' ∧ c2 = ':' ∧ z = 'Z' then do
      let yh ← twoDigits y1 y2
      let yl ← twoDigits y3 y4
      let mo ← twoDigits m1 m2
      let da ← twoDigits d1 d2
      let ho ← twoDigits h1 h2
      let mi ← twoDigits n1 n2
      let se ← twoDigits e1 e2
      if 1 ≤ mo ∧ mo ≤ 12 ∧ 1 ≤ da ∧ da ≤ 31 ∧ ho ≤ 23 ∧ mi ≤ 59 ∧ se ≤ 59 then
        let days := daysFromCivil (yh * 100 + yl) mo da
        pure ((((days * 24 + (ho : Int)) * 60 + (mi : Int)) * 60 + (se : Int)) * 1000)
      else none
    else none
  | _ => none

/-! ## Releases -/

/-- An asset of a release: only `download_count` is read. -/
structure Asset where
  download_count : Nat
  deriving DecidableEq, Repr

/-- A release as returned by the releases endpoint: the four properties the job reads. -/
structure Release where
  draft : Bool
  prerelease : Bool
  published_at : Str
  assets : List Asset
  deriving DecidableEq, Repr

/-- The inner `reduce` of `calculateDownloads`:
`release.assets.reduce((sum, asset) => sum + asset.download_count, 0)`. -/
def assetDownloads (release : Release) : Nat :=
  release.assets.foldl (fun sum asset => sum + asset.download_count) 0

namespace UpdateAppMeta

/-- Function `calculateDownloads` of `update-app-meta.mjs`:
`releases.filter((r) => !r.draft).reduce((total, release) => total + (inner reduce), 0)`. -/
def calculateDownloads (releases : List Release) : Nat :=
  (releases.filter (fun r => !r.draft)).foldl
    (fun total release => total + assetDownloads release) 0

end UpdateAppMeta

namespace UpdateDownloads

/-- Function `calculateDownloads` of `update-downloads.mjs`: the same fold, with the inner
sum bound to `releaseDownloads` first. -/
def calculateDownloads (releases : List Release) : Nat :=
  (releases.filter (fun r => !r.draft)).foldl
    (fun total release =>
      let releaseDownloads := assetDownloads release
      total + releaseDownloads) 0

end UpdateDownloads

/-! ## Responses of the releases endpoint -/

/-- What one `fetch` of a page of releases can come to. -/
inductive Response where
  /-- The call of `fetch` rejects: a failure of the network. -/
  | networkError
  /-- A response with `res.ok` false. -/
  | notOk
  /-- A successful response whose `res.json()` rejects. -/
  | invalidBody
  /-- A successful response with its parsed body: `none` for a `null` body, otherwise the
  array of releases. -/
  | ok (releases : Option (List Release))
  deriving DecidableEq, Repr

/-- The releases a response adds to the collection: those of a successful response with an
array body, nothing otherwise. -/
def Response.releases : Response → List Release
  | .ok (some releases) => releases
  | _ => []

/-- A full page: a successful response with at least 100 releases, after which
`fetchReleases` asks for the next page. -/
def Response.isFull : Response → Bool
  | .ok (some releases) => decide (100 ≤ releases.length)
  | _ => false

/-- The text `github.com` that `extractRepo` looks for in the host name. -/
def githubCom : Str := "github.com".toList

namespace UpdateAppMeta

/-- Function `extractRepo` of `update-app-meta.mjs`.  `newURL` is the platform's `new URL`,
`none` where it throws; the `catch` turns that into `null`. -/
def extractRepo (newURL : Str → Option URL) (url : Option Str) : Option Str :=
  if !truthy url then none
  else
    match url.bind newURL with
    | none => none
    | some urlObj =>
      if !includes urlObj.hostname githubCom then none
      else
        match (split '/' urlObj.pathname).filter (fun part => !part.isEmpty) with
        | p0 :: p1 :: _ => some (p0 ++ '/' :: p1)
        | _ => none

/-- The loop of `fetchReleases`, one iteration per unit of `fuel`.  `api page` is what the
request for `page` comes to.  The state is the page number, the pages requested so far and
`allReleases`; the result is `none` only when the fuel runs out before the loop breaks. -/
def fetchLoop (api : Nat → Response) :
    Nat → Nat → List Nat → List Release → Option (List Nat × List Release)
  | 0, _, _, _ => none
  | fuel + 1, page, requested, allReleases =>
    match api page with
    | .networkError => some (requested ++ [page], allReleases)
    | .notOk => some (requested ++ [page], allReleases)
    | .invalidBody => some (requested ++ [page], allReleases)
    | .ok none => some (requested ++ [page], allReleases)
    | .ok (some releases) =>
      if releases.length = 0 then some (requested ++ [page], allReleases)
      else if releases.length < 100 then some (requested ++ [page], allReleases ++ releases)
      else fetchLoop api fuel (page + 1) (requested ++ [page]) (allReleases ++ releases)

/-- Function `fetchReleases` of `update-app-meta.mjs` (that of `update-downloads.mjs` differs
in its log lines only): the pages requested, in order, and the releases returned. -/
def fetchReleases (api : Nat → Response) (fuel : Nat) : Option (List Nat × List Release) :=
  fetchLoop api fuel 1 [] []

/-- The comparison `getLatestReleaseDate` sorts by:
`new Date(b.published_at).getTime() - new Date(a.published_at).getTime()`, where `getTime` is
`none` for an invalid date and the difference is then `NaN`. -/
def compareByDate (getTime : Str → Option Int) (a b : Release) : Option Int := do
  let tb ← getTime b.published_at
  let ta ← getTime a.published_at
  pure (tb - ta)

/-- Function `getLatestReleaseDate` of `update-app-meta.mjs` (lines 70 to 78).  The last
case of the `match` is never taken: the sort keeps every element. -/
def getLatestReleaseDate (getTime : Str → Option Int) (releases : List Release) :
    Option Str :=
  let nonDraft := releases.filter (fun r => !r.draft && !r.prerelease)
  if nonDraft.length = 0 then none
  else
    match sort (compareByDate getTime) nonDraft with
    | [] => none
    | first :: _ => (split 'T' first.published_at).head?

end UpdateAppMeta

namespace UpdateDownloads

/-- Function `extractRepo` of `update-downloads.mjs`: that of `update-app-meta.mjs` without
the test of the host name. -/
def extractRepo (newURL : Str → Option URL) (url : Option Str) : Option Str :=
  if !truthy url then none
  else
    match url.bind newURL with
    | none => none
    | some urlObj =>
      match (split '/' urlObj.pathname).filter (fun part => !part.isEmpty) with
      | p0 :: p1 :: _ => some (p0 ++ '/' :: p1)
      | _ => none

end UpdateDownloads

/-! ## The catalog and the metadata file -/

/-- An entry of the catalog (`apps.json`): the three properties `main` reads, and the
remaining properties (`downloads` and `lastUpdated` among them) in the order of the file,
with values of any type `V`. -/
structure App (V : Type) where
  id : Str
  name : Str
  githubUrl : Option Str
  rest : List (Str × V)
  deriving DecidableEq, Repr

/-- The key `downloads`. -/
def downloadsKey : Str := "downloads".toList

/-- The key `lastUpdated`. -/
def lastUpdatedKey : Str := "lastUpdated".toList

/-- The reserved key `_generatedAt` of the metadata file. -/
def generatedAtKey : Str := "_generatedAt".toList

/-- The test `key in app`, for a key among the remaining properties. -/
def App.has {V : Type} (key : Str) (app : App V) : Bool :=
  app.rest.any (fun field => field.1 == key)

/-- The statement `delete app[key]`: an object holds a key once, and the other properties keep their
order. -/
def App.delete {V : Type} (key : Str) (app : App V) : App V :=
  { app with rest := app.rest.filter (fun field => field.1 != key) }

/-- An entry of the metadata file. -/
structure Entry where
  downloads : Option Nat
  lastUpdated : Option Str
  deriving DecidableEq, Repr

/-- A value of the metadata object: the timestamp under `_generatedAt`, or an entry. -/
inductive MetaValue where
  | generatedAt (iso : Str)
  | entry (e : Entry)
  deriving DecidableEq, Repr

/-- The key `__proto__`, which a plain object inherits from `Object.prototype` as an accessor. -/
def protoKey : Str := "__proto__".toList

/-- Creation or replacement of an own property of an object kept as the list of its own
properties: an existing key keeps its place, a new key goes to the end. -/
def upsert {β : Type} (key : Str) (value : β) : List (Str × β) → List (Str × β)
  | [] => [(key, value)]
  | (k, v) :: rest =>
    if k = key then (key, value) :: rest else (k, v) :: upsert key value rest

/-- The assignment `obj[key] = value` of an object to a key of a plain object.  For the key
`__proto__` the assignment reaches the inherited setter, which replaces the prototype and
creates no property; for any other key it creates or replaces the own property.  The list
holds the own properties, which are what `JSON.stringify` writes; it is read by key only, so
the place `JSON.stringify` gives to keys that are array indices plays no part. -/
def setProperty {β : Type} (key : Str) (value : β) (obj : List (Str × β)) :
    List (Str × β) :=
  if key = protoKey then obj else upsert key value obj

/-- The value under `key` among the own properties of an object, which is the value the
written file holds under `key`; `none` when the object has no such property. -/
def getProperty {β : Type} (key : Str) : List (Str × β) → Option β
  | [] => none
  | (k, v) :: rest => if k = key then some v else getProperty key rest

namespace UpdateAppMeta

/-- One pass of the first loop of `main` (lines 89 to 92): the entries handled so far and
`appsModified`. -/
def stripApp {V : Type} (state : List (App V) × Bool) (app : App V) : List (App V) × Bool :=
  let step1 : App V × Bool :=
    if app.has downloadsKey then (app.delete downloadsKey, true)
    else (app, state.2)
  let step2 : App V × Bool :=
    if step1.1.has lastUpdatedKey then (step1.1.delete lastUpdatedKey, true)
    else step1
  (state.1 ++ [step2.1], step2.2)

/-- The first loop of `main`: `appsData` after it, and `appsModified`. -/
def stripLegacy {V : Type} (appsData : List (App V)) : List (App V) × Bool :=
  appsData.foldl stripApp ([], false)

/-- The sanitation step of `main` (lines 87 to 96): `appsData` after the loop, and what is
written to the catalog file, `none` when nothing is written. -/
def sanitation {V : Type} (appsData : List (App V)) : List (App V) × Option (List (App V)) :=
  let stripped := stripLegacy appsData
  (stripped.1, if stripped.2 then some stripped.1 else none)

/-- The entry `main` builds from the two results (lines 113 to 115). -/
def buildEntry (downloads : Nat) (lastUpdated : Option Str) : Entry :=
  { downloads := if downloads > 0 then some downloads else none
    lastUpdated := if truthy lastUpdated then lastUpdated else none }

/-- One pass of the second loop of `main` (lines 100 to 125).  `fetchReleases repo` is the
array `await fetchReleases(repo)` resolves to. -/
def processApp {V : Type} (newURL : Str → Option URL) (fetchReleases : Str → List Release)
    (getTime : Str → Option Int) (meta : List (Str × MetaValue)) (app : App V) :
    List (Str × MetaValue) :=
  let repo := extractRepo newURL app.githubUrl
  if !truthy repo then meta
  else
    let releases := fetchReleases (repo.getD [])
    let downloads := calculateDownloads releases
    let lastUpdated := getLatestReleaseDate getTime releases
    let entry := buildEntry downloads lastUpdated
    if entry.downloads.isSome || entry.lastUpdated.isSome then
      setProperty app.id (MetaValue.entry entry) meta
    else meta

/-- What `main` writes: the catalog file when it is rewritten, and the metadata file. -/
structure Output (V : Type) where
  appsFile : Option (List (App V))
  outputFile : List (Str × MetaValue)

/-- Function `main` of `update-app-meta.mjs`, for a catalog that was read and parsed; `now` is the
timestamp of the run. -/
def main {V : Type} (newURL : Str → Option URL) (fetchReleases : Str → List Release)
    (getTime : Str → Option Int) (now : Str) (appsData : List (App V)) : Output V :=
  let cleaned := sanitation appsData
  { appsFile := cleaned.2
    outputFile :=
      cleaned.1.foldl (processApp newURL fetchReleases getTime)
        [(generatedAtKey, MetaValue.generatedAt now)] }

end UpdateAppMeta

/-! ## The love button -/

/-- A count and a loved flag: the body of a response of the vote endpoint, an entry of the
local cache, a preloaded state. -/
structure Vote where
  count : Int
  loved : Bool
  deriving DecidableEq, Repr

/-- What the `POST` of a toggle can come to. -/
inductive PostResult where
  /-- The call of `fetch` rejects. -/
  | networkError
  /-- A response with `res.ok` false: `handleToggle` throws `Failed to vote`. -/
  | notOk
  /-- A successful response whose `res.json()` rejects. -/
  | invalidBody
  /-- A successful response with its body. -/
  | ok (data : Vote)
  deriving DecidableEq, Repr

/-- The request failed: one of the three ways into the `catch` of `handleToggle`. -/
def PostResult.failed : PostResult → Bool
  | .ok _ => false
  | _ => true

/-- The state of one `LoveButton`: the value of `useAnonymousId()`, the four state variables of
the component, the entry of `voteStorage` for its item, and the toggle requests that were sent
and have not come back, each with the `newLovedState` its handler holds. -/
structure Widget where
  userId : Option Str
  count : Int
  loved : Bool
  loading : Bool
  hasFetched : Bool
  cache : Option Vote
  inFlight : List Bool
  deriving DecidableEq, Repr

/-- Modelled from the spec: `voteStorage.updateItem(itemId, value)`, whose module is not among
the sources; the cache is an upsert by item identifier over `{count, loved}`, so for the item
of this button it replaces the entry. -/
def updateItem (value : Vote) (w : Widget) : Widget :=
  { w with cache := some value }

/-- The state after the first render (lines 21 to 29); `stored` is what
`voteStorage.getItem(itemId)` gives. -/
def mount (userId : Option Str) (initialCount : Int) (preloadedState stored : Option Vote) :
    Widget :=
  let cached := if preloadedState.isSome then none else stored
  { userId := userId
    count := match preloadedState, cached with
      | some p, _ => p.count
      | none, some c => c.count
      | none, none => initialCount
    loved := match preloadedState, cached with
      | some p, _ => p.loved
      | none, some c => c.loved
      | none, none => false
    loading := false
    hasFetched := preloadedState.isSome || cached.isSome
    cache := stored
    inFlight := [] }

/-- What a render hands to the handlers it creates: the values of `userId`, `count`, `loved`
and `loading` at that render (lines 21 and 26 to 28).  A handler keeps them for as long as it
is the handler of the button, whatever the state setters have queued since. -/
structure Captured where
  userId : Option Str
  count : Int
  loved : Bool
  loading : Bool
  deriving DecidableEq, Repr

/-- The values a render of the state `w` captures. -/
def capture (w : Widget) : Captured :=
  { userId := w.userId, count := w.count, loved := w.loved, loading := w.loading }

/-- Function `handleToggle` up to its `await` (lines 55 to 67), for the handler of a render
that captured `c`, run when the state is `w`: the guard and `newLovedState` read the captured
`userId`, `loading` and `loved`, the write to the cache reads the captured `count`, and
`setLoved`, the functional `setCount` and `setLoading` act on the state. -/
def handleToggleOf (c : Captured) (w : Widget) : Widget :=
  if !truthy c.userId || c.loading then w
  else
    let newLovedState := !c.loved
    let w1 := { w with loved := newLovedState }
    let w2 := { w1 with count := if newLovedState then w1.count + 1 else w1.count - 1 }
    let w3 := updateItem
      { count := c.count + (if newLovedState then 1 else -1), loved := newLovedState } w2
    let w4 := { w3 with loading := true }
    { w4 with inFlight := w4.inFlight ++ [newLovedState] }

/-- Function `handleToggle` up to its `await` (lines 55 to 67), for the handler of a render of
the state `w` itself: the guard, the optimistic update, the write to the cache,
`setLoading(true)`, and the request sent. -/
def handleToggle (w : Widget) : Widget :=
  if !truthy w.userId || w.loading then w
  else
    let newLovedState := !w.loved
    let w1 := { w with loved := newLovedState }
    let w2 := { w1 with count := if newLovedState then w1.count + 1 else w1.count - 1 }
    let w3 := updateItem
      { count := w.count + (if newLovedState then 1 else -1), loved := newLovedState } w2
    let w4 := { w3 with loading := true }
    { w4 with inFlight := w4.inFlight ++ [newLovedState] }

/-- Function `handleToggle` from the answer on (lines 68 to 80), for the handler that holds
`newLovedState`: `try`, `catch` and `finally`. -/
def toggleSettled (newLovedState : Bool) (result : PostResult) (w : Widget) : Widget :=
  let w1 :=
    match result with
    | .ok data => if data.loved != newLovedState then { w with loved := data.loved } else w
    | _ =>
      let v := { w with loved := !newLovedState }
      { v with count := if !newLovedState then v.count + 1 else v.count - 1 }
  { w1 with loading := false }

/-- The `then` of the read in the second effect (lines 44 to 50). -/
def voteLoaded (data : Vote) (w : Widget) : Widget :=
  updateItem { count := data.count, loved := data.loved }
    { w with count := data.count, loved := data.loved, hasFetched := true }

/-- The first effect (lines 31 to 37), for a `preloadedState` that is present. -/
def preloaded (p : Vote) (w : Widget) : Widget :=
  { w with count := p.count, loved := p.loved, hasFetched := true }

/-- A mounted button: its state with every queued update applied, and the values captured by
the render whose handlers the button carries. -/
structure Mounted where
  state : Widget
  captured : Captured
  deriving DecidableEq, Repr

/-- The button after the first render of the state `w`. -/
def rendered (w : Widget) : Mounted :=
  { state := w, captured := capture w }

/-- What can happen to a mounted button. -/
inductive Event where
  /-- A click on the button, handled by the handler the button carries. -/
  | click
  /-- A render of the component with the state as it is, which replaces the handler. -/
  | render
  /-- The answer to the toggle request at position `i` of `inFlight`. -/
  | settled (i : Nat) (result : PostResult)
  /-- The answer to the read of the second effect. -/
  | loaded (data : Vote)
  /-- A `preloadedState` handed down by the parent. -/
  | preload (p : Vote)
  deriving DecidableEq, Repr

/-- The button after an event; an answer to a request that is not in flight changes
nothing. -/
def step (m : Mounted) : Event → Mounted
  | .click => { m with state := handleToggleOf m.captured m.state }
  | .render => { m with captured := capture m.state }
  | .settled i result =>
    match m.state.inFlight[i]? with
    | none => m
    | some newLovedState =>
      { m with
        state :=
          { toggleSettled newLovedState result m.state with
            inFlight := m.state.inFlight.eraseIdx i } }
  | .loaded data => { m with state := voteLoaded data m.state }
  | .preload p => { m with state := preloaded p m.state }

/-- Every click of the run is handled by a handler whose render is up to date: the values it
captured are those of the state at the click. -/
def clicksRendered : Mounted → List Event → Bool
  | _, [] => true
  | m, e :: events =>
    (match e with
      | .click => decide (m.captured = capture m.state)
      | _ => true)
    && clicksRendered (step m e) events

/-! ## Vocabulary of the statements -/

/-- An entry without its `downloads` and `lastUpdated`, the rest as it was. -/
def withoutLegacy {V : Type} (app : App V) : App V :=
  { app with
    rest := List.filter (fun field => field.1 != downloadsKey && field.1 != lastUpdatedKey)
      app.rest }

/-- An entry has one of the two legacy fields. -/
def hasLegacy {V : Type} (app : App V) : Bool :=
  app.has downloadsKey || app.has lastUpdatedKey

/-- The widget holds exactly one request in flight while `loading`, and none otherwise. -/
def Consistent (w : Widget) : Prop :=
  w.inFlight.length = if w.loading then 1 else 0

/-! ## Sample data -/

/-- Four releases: two stable ones, a later prerelease and a still later draft. -/
def sampleReleases : List Release :=
  [⟨false, false, "2024-01-01T00:00:00Z".toList, [⟨7⟩]⟩,
   ⟨false, false, "2024-03-05T10:00:00Z".toList, [⟨5⟩, ⟨1⟩]⟩,
   ⟨false, true, "2025-01-01T00:00:00Z".toList, [⟨3⟩]⟩,
   ⟨true, false, "2026-01-01T00:00:00Z".toList, [⟨100⟩]⟩]

/-- The release of the scenario of two pages: not a draft, one asset downloaded once. -/
def oneDownload : Release :=
  ⟨false, false, "2024-01-01T00:00:00Z".toList, [⟨1⟩]⟩

/-- The scenario of two pages: a first page of 100 releases, a second page of one. -/
def twoPages (page : Nat) : Response :=
  if page = 1 then Response.ok (some (List.replicate 100 oneDownload))
  else if page = 2 then Response.ok (some [oneDownload])
  else Response.notOk

/-- What the releases endpoint holds in the sample: the sample releases for `foo/bar`, nothing
for any other repository. -/
def sampleFetch (repo : Str) : List Release :=
  if repo = "foo/bar".toList then sampleReleases else []

/-- A catalog of three entries: one with releases and legacy fields, one whose repository has
no release, one without a link. -/
def sampleCatalog : List (App Nat) :=
  [{ id := "bar".toList, name := "Bar".toList
     githubUrl := some "https://github.com/foo/bar".toList
     rest := [("downloads".toList, 4), ("tags".toList, 0), ("lastUpdated".toList, 9)] },
   { id := "empty".toList, name := "Empty".toList
     githubUrl := some "https://github.com/foo/empty".toList
     rest := [("tags".toList, 1)] },
   { id := "plain".toList, name := "Plain".toList
     githubUrl := none
     rest := [] }]

/-- A button that shows an unloved item with count 5. -/
def sampleWidget : Widget :=
  mount (some "visitor".toList) 5 none none

/-- A catalog of one entry whose identifier is `__proto__`, linked to the repository of the
sample releases. -/
def protoCatalog : List (App Nat) :=
  [{ id := "__proto__".toList, name := "Proto".toList
     githubUrl := some "https://github.com/foo/bar".toList
     rest := [] }]

/-! ## Properties -/

/-- A left fold that adds `f x` for each element is the start value plus the sum of the `f x`. -/
theorem foldl_add_eq_sum {α : Type} (f : α → Nat) (l : List α) (init : Nat) :
    l.foldl (fun acc x => acc + f x) init = init + (l.map f).sum := by
  induction l generalizing init with
  | nil => simp
  | cons x xs ih => simp [ih, Nat.add_assoc]

theorem assetDownloads_eq_sum (r : Release) :
    assetDownloads r = (r.assets.map (fun a => a.download_count)).sum := by
  simp [assetDownloads, foldl_add_eq_sum]

theorem calculateDownloads_eq_sum (rs : List Release) :
    UpdateAppMeta.calculateDownloads rs
      = ((rs.filter (fun r => r.draft = false)).map
          (fun r => (r.assets.map (fun a => a.download_count)).sum)).sum := by
  unfold UpdateAppMeta.calculateDownloads
  rw [foldl_add_eq_sum]
  have : (fun r : Release => !r.draft) = (fun r : Release => decide (r.draft = false)) := by
    funext r; cases r.draft <;> rfl
  have hsum : assetDownloads = fun r => (r.assets.map (fun a => a.download_count)).sum :=
    funext assetDownloads_eq_sum
  simp [this, hsum]

theorem calculateDownloads_same (rs : List Release) :
    UpdateDownloads.calculateDownloads rs = UpdateAppMeta.calculateDownloads rs := rfl

/-- C1. `calculateDownloads` (both scripts) returns the sum, over the releases whose draft flag
is false, of the sum of their assets' download counts.  A release put anywhere in the list
adds nothing when it is a draft and adds the sum of its assets otherwise, whatever its
prerelease flag. -/
theorem calculateDownloads_spec (rs pre post : List Release) (r : Release) :
    UpdateAppMeta.calculateDownloads rs
        = ((rs.filter (fun r => r.draft = false)).map
            (fun r => (r.assets.map (fun a => a.download_count)).sum)).sum
    ∧ UpdateDownloads.calculateDownloads rs = UpdateAppMeta.calculateDownloads rs
    ∧ UpdateAppMeta.calculateDownloads (pre ++ r :: post)
        = UpdateAppMeta.calculateDownloads (pre ++ post)
          + (if r.draft then 0 else (r.assets.map (fun a => a.download_count)).sum) := by
  refine ⟨calculateDownloads_eq_sum rs, rfl, ?_⟩
  rw [calculateDownloads_eq_sum, calculateDownloads_eq_sum]
  cases h : r.draft <;> simp [List.filter_cons, h]
  omega

/-! ### `split` -/

theorem split_ne_nil (sep : Char) (s : Str) : split sep s ≠ [] := by
  induction s with
  | nil => simp [split]
  | cons c cs ih =>
    simp only [split]
    split_ifs
    · simp
    · cases h : split sep cs with
      | nil => simp
      | cons piece pieces => simp

/-- The first piece of a split is the text before the first separator. -/
theorem split_head (sep : Char) (s : Str) :
    ∃ d, (split sep s).head? = some d ∧ sep ∉ d ∧ (s = d ∨ ∃ rest, s = d ++ sep :: rest) := by
  induction s with
  | nil => exact ⟨[], by simp [split]⟩
  | cons c cs ih =>
    by_cases hc : c = sep
    · exact ⟨[], by simp [split, hc]⟩
    · obtain ⟨d, hd, hn, hs⟩ := ih
      cases h : split sep cs with
      | nil => exact absurd h (split_ne_nil sep cs)
      | cons piece pieces =>
        rw [h] at hd
        simp only [List.head?_cons, Option.some.injEq] at hd
        subst hd
        refine ⟨c :: piece, by simp [split, hc, h], ?_, ?_⟩
        · simp only [List.mem_cons, not_or]
          exact ⟨fun e => hc e.symm, hn⟩
        · rcases hs with hs | ⟨rest, hs⟩
          · exact Or.inl (by rw [hs])
          · exact Or.inr ⟨rest, by rw [hs]; rfl⟩

theorem split_of_not_mem (sep : Char) (s : Str) (h : sep ∉ s) : split sep s = [s] := by
  induction s with
  | nil => rfl
  | cons c cs ih =>
    simp only [List.mem_cons, not_or] at h
    have hc : ¬ c = sep := fun e => h.1 e.symm
    simp [split, hc, ih h.2]

theorem split_append_sep (sep : Char) (s t : Str) (h : sep ∉ s) :
    split sep (s ++ sep :: t) = s :: split sep t := by
  induction s with
  | nil => simp [split]
  | cons c cs ih =>
    simp only [List.mem_cons, not_or] at h
    have hc : ¬ c = sep := fun e => h.1 e.symm
    simp [split, hc, ih h.2]

/-! ### `sort` -/

theorem mem_insertSorted {α : Type} (cmp : α → α → Option Int) (a x : α) (l : List α) :
    x ∈ insertSorted cmp a l ↔ x = a ∨ x ∈ l := by
  induction l with
  | nil => simp [insertSorted]
  | cons b l ih =>
    simp only [insertSorted]
    split_ifs
    · simp
    · simp only [List.mem_cons, ih]
      tauto

theorem mem_sort {α : Type} (cmp : α → α → Option Int) (x : α) (l : List α) :
    x ∈ sort cmp l ↔ x ∈ l := by
  induction l with
  | nil => simp [sort]
  | cons a l ih => simp [sort, mem_insertSorted, ih]

/-- Where every date is valid, the sort by date puts first an element with the greatest
time. -/
theorem sort_head_latest (getTime : Str → Option Int) (l : List Release) (hne : l ≠ [])
    (hvalid : ∀ r ∈ l, ∃ t, getTime r.published_at = some t) :
    ∃ first others tf, sort (UpdateAppMeta.compareByDate getTime) l = first :: others
      ∧ first ∈ l ∧ getTime first.published_at = some tf
      ∧ ∀ r ∈ l, ∃ t, getTime r.published_at = some t ∧ t ≤ tf := by
  induction l with
  | nil => exact absurd rfl hne
  | cons a l ih =>
    obtain ⟨ta, hta⟩ := hvalid a (List.mem_cons_self a l)
    by_cases hl : l = []
    · subst hl
      refine ⟨a, [], ta, by simp [sort, insertSorted], by simp, hta, ?_⟩
      intro r hr
      simp only [List.mem_singleton] at hr
      subst hr
      exact ⟨ta, hta, le_refl _⟩
    · obtain ⟨first, others, tf, hs, hmem, htf, hmax⟩ :=
        ih hl (fun r hr => hvalid r (List.mem_cons_of_mem a hr))
      have hcmp : (UpdateAppMeta.compareByDate getTime a first).getD 0 = tf - ta := by
        simp [UpdateAppMeta.compareByDate, hta, htf]
      by_cases hle : tf - ta ≤ 0
      · refine ⟨a, first :: others, ta, ?_, by simp, hta, ?_⟩
        · simp [sort, hs, insertSorted, hcmp, hle]
        · intro r hr
          rcases List.mem_cons.mp hr with rfl | hr
          · exact ⟨ta, hta, le_refl _⟩
          · obtain ⟨t, ht, hle2⟩ := hmax r hr
            exact ⟨t, ht, by omega⟩
      · refine ⟨first, insertSorted (UpdateAppMeta.compareByDate getTime) a others, tf, ?_,
          List.mem_cons_of_mem a hmem, htf, ?_⟩
        · simp [sort, hs, insertSorted, hcmp, hle]
        · intro r hr
          rcases List.mem_cons.mp hr with rfl | hr
          · exact ⟨ta, hta, by omega⟩
          · exact hmax r hr

/-- C2. Where the publish timestamps of the releases that are neither draft nor prerelease are
valid dates, `getLatestReleaseDate` returns nothing exactly when there is no such release, and
otherwise returns the text before the first `T` of the publish timestamp of such a release
whose time no other such release exceeds. -/
theorem getLatestReleaseDate_spec (getTime : Str → Option Int) (releases : List Release)
    (hvalid : ∀ r ∈ releases, r.draft = false → r.prerelease = false →
      (getTime r.published_at).isSome = true) :
    (UpdateAppMeta.getLatestReleaseDate getTime releases = none
        ↔ ∀ r ∈ releases, ¬ (r.draft = false ∧ r.prerelease = false))
    ∧ ((∃ r ∈ releases, r.draft = false ∧ r.prerelease = false) →
        ∃ latest tl date, latest ∈ releases ∧ latest.draft = false ∧ latest.prerelease = false
          ∧ getTime latest.published_at = some tl
          ∧ (∀ r ∈ releases, r.draft = false → r.prerelease = false →
              ∃ t, getTime r.published_at = some t ∧ t ≤ tl)
          ∧ UpdateAppMeta.getLatestReleaseDate getTime releases = some date
          ∧ 'T' ∉ date
          ∧ (latest.published_at = date ∨ ∃ rest, latest.published_at = date ++ 'T' :: rest)) := by
  have hfilter : ∀ r, r ∈ releases.filter (fun r => !r.draft && !r.prerelease)
      ↔ r ∈ releases ∧ r.draft = false ∧ r.prerelease = false := by
    intro r
    simp [List.mem_filter]
  have hsome : (∃ r ∈ releases, r.draft = false ∧ r.prerelease = false) →
      ∃ latest tl date, latest ∈ releases ∧ latest.draft = false ∧ latest.prerelease = false
          ∧ getTime latest.published_at = some tl
          ∧ (∀ r ∈ releases, r.draft = false → r.prerelease = false →
              ∃ t, getTime r.published_at = some t ∧ t ≤ tl)
          ∧ UpdateAppMeta.getLatestReleaseDate getTime releases = some date
          ∧ 'T' ∉ date
          ∧ (latest.published_at = date ∨ ∃ rest, latest.published_at = date ++ 'T' :: rest) := by
    rintro ⟨r0, hr0, hd0, hp0⟩
    have hne : releases.filter (fun r => !r.draft && !r.prerelease) ≠ [] :=
      List.ne_nil_of_mem ((hfilter r0).mpr ⟨hr0, hd0, hp0⟩)
    obtain ⟨first, others, tf, hs, hmem, htf, hmax⟩ :=
      sort_head_latest getTime _ hne (fun r hr => Option.isSome_iff_exists.mp
        (hvalid r ((hfilter r).mp hr).1 ((hfilter r).mp hr).2.1 ((hfilter r).mp hr).2.2))
    obtain ⟨date, hdate, hT, hshape⟩ := split_head 'T' first.published_at
    have hfm := (hfilter first).mp hmem
    refine ⟨first, tf, date, hfm.1, hfm.2.1, hfm.2.2, htf, ?_, ?_, hT, hshape⟩
    · intro r hr hd hp
      exact hmax r ((hfilter r).mpr ⟨hr, hd, hp⟩)
    · have hlen : (releases.filter (fun r => !r.draft && !r.prerelease)).length ≠ 0 := by
        simpa [List.length_eq_zero] using hne
      simp only [UpdateAppMeta.getLatestReleaseDate, hlen, if_false, hs]
      exact hdate
  refine ⟨⟨?_, ?_⟩, hsome⟩
  · intro hnone r hr hq
    obtain ⟨_, _, date, _, _, _, _, _, hres, _⟩ := hsome ⟨r, hr, hq⟩
    rw [hnone] at hres
    exact Option.noConfusion hres
  · intro hall
    have hnil : releases.filter (fun r => !r.draft && !r.prerelease) = [] := by
      rw [List.eq_nil_iff_forall_not_mem]
      intro r hr
      exact hall r ((hfilter r).mp hr).1 ((hfilter r).mp hr).2
    simp [UpdateAppMeta.getLatestReleaseDate, hnil]

/-- An instance of C2: of two stable releases, a prerelease and a draft, the later stable
release gives the date. -/
theorem getLatestReleaseDate_spec_witness :
    UpdateAppMeta.getLatestReleaseDate isoTime sampleReleases = some "2024-03-05".toList
    ∧ ∃ latest tl date, latest ∈ sampleReleases ∧ latest.draft = false
        ∧ latest.prerelease = false
        ∧ isoTime latest.published_at = some tl
        ∧ (∀ r ∈ sampleReleases, r.draft = false → r.prerelease = false →
            ∃ t, isoTime r.published_at = some t ∧ t ≤ tl)
        ∧ UpdateAppMeta.getLatestReleaseDate isoTime sampleReleases = some date
        ∧ 'T' ∉ date
        ∧ (latest.published_at = date ∨ ∃ rest, latest.published_at = date ++ 'T' :: rest) :=
  ⟨by decide,
   (getLatestReleaseDate_spec isoTime sampleReleases (by decide)).2
      ⟨⟨false, false, "2024-01-01T00:00:00Z".toList, [⟨7⟩]⟩, by decide, rfl, rfl⟩⟩

/-! ### `extractRepo` -/

theorem not_mem_of_mem_split (sep : Char) (s : Str) : ∀ piece ∈ split sep s, sep ∉ piece := by
  induction s with
  | nil => simp [split]
  | cons c cs ih =>
    by_cases hc : c = sep
    · intro piece hp
      simp only [split, hc, if_true, List.mem_cons] at hp
      rcases hp with rfl | hp
      · simp
      · exact ih piece hp
    · cases h : split sep cs with
      | nil => exact absurd h (split_ne_nil sep cs)
      | cons first others =>
        rw [h] at ih
        intro piece hp
        simp only [split, hc, if_false, h, List.mem_cons] at hp
        rcases hp with rfl | hp
        · have := ih first (List.mem_cons_self _ _)
          simp only [List.mem_cons, not_or]
          exact ⟨fun e => hc e.symm, this⟩
        · exact ih piece (List.mem_cons_of_mem _ hp)

/-- Joining the pieces of a split with the separator gives the text back. -/
theorem intercalate_split (sep : Char) (s : Str) :
    List.intercalate [sep] (split sep s) = s := by
  induction s with
  | nil => simp [split, List.intercalate]
  | cons c cs ih =>
    by_cases hc : c = sep
    · cases h : split sep cs with
      | nil => exact absurd h (split_ne_nil sep cs)
      | cons first others =>
        rw [h] at ih
        simp only [split, hc, if_true, h]
        simp only [List.intercalate, List.intersperse, List.flatten, List.nil_append,
          List.singleton_append] at ih ⊢
        rw [ih]
    · cases h : split sep cs with
      | nil => exact absurd h (split_ne_nil sep cs)
      | cons first others =>
        rw [h] at ih
        simp only [split, hc, if_false, h]
        cases others with
        | nil =>
          simp only [List.intercalate, List.intersperse, List.flatten, List.append_nil] at ih ⊢
          rw [ih]
        | cons second more =>
          simp only [List.intercalate, List.intersperse, List.flatten, List.cons_append] at ih ⊢
          rw [ih]

/-- The non-empty pieces of the path `/owner/repo` and what may follow start with `owner` and
`repo`. -/
theorem parts_of_path (owner repo rest : Str) (howner : owner ≠ []) (hrepo : repo ≠ [])
    (ho : '/' ∉ owner) (hr : '/' ∉ repo) (hrest : rest = [] ∨ ∃ more, rest = '/' :: more) :
    ∃ others, (split '/' ('/' :: (owner ++ '/' :: (repo ++ rest)))).filter
        (fun part => !part.isEmpty) = owner :: repo :: others := by
  have h1 : split '/' ('/' :: (owner ++ '/' :: (repo ++ rest)))
      = [] :: owner :: split '/' (repo ++ rest) := by
    simp [split, split_append_sep _ _ _ ho]
  have h2 : ∃ tail, split '/' (repo ++ rest) = repo :: tail := by
    rcases hrest with rfl | ⟨more, rfl⟩
    · exact ⟨[], by simp [split_of_not_mem _ _ hr]⟩
    · exact ⟨split '/' more, split_append_sep _ _ _ hr⟩
  obtain ⟨tail, h2⟩ := h2
  refine ⟨tail.filter (fun part => !part.isEmpty), ?_⟩
  rw [h1, h2]
  have e1 : owner.isEmpty = false := by cases owner <;> simp_all
  have e2 : repo.isEmpty = false := by cases repo <;> simp_all
  simp [List.filter_cons, e1, e2]

/-- C5. For a URL `https://github.com/OWNER/REPO`, alone or followed by `/` and more, that the
platform reads as host `github.com` with the path as written, `extractRepo` (both scripts)
returns `OWNER/REPO`; `OWNER` and `REPO` are non-empty and free of `/`. -/
theorem extractRepo_github (newURL : Str → Option URL) (owner repo rest : Str)
    (howner : owner ≠ []) (hrepo : repo ≠ []) (ho : '/' ∉ owner) (hr : '/' ∉ repo)
    (hrest : rest = [] ∨ ∃ more, rest = '/' :: more)
    (hparse : newURL ("https://github.com/".toList ++ (owner ++ '/' :: (repo ++ rest)))
      = some { hostname := "github.com".toList
               pathname := '/' :: (owner ++ '/' :: (repo ++ rest)) }) :
    UpdateAppMeta.extractRepo newURL
        (some ("https://github.com/".toList ++ (owner ++ '/' :: (repo ++ rest))))
      = some (owner ++ '/' :: repo)
    ∧ UpdateDownloads.extractRepo newURL
        (some ("https://github.com/".toList ++ (owner ++ '/' :: (repo ++ rest))))
      = some (owner ++ '/' :: repo) := by
  obtain ⟨others, hparts⟩ := parts_of_path owner repo rest howner hrepo ho hr hrest
  have htruthy : truthy (some ("https://github.com/".toList ++ (owner ++ '/' :: (repo ++ rest))))
      = true := by
    simp [truthy]
  have hhost : includes "github.com".toList githubCom = true := by decide
  constructor
  · simp only [UpdateAppMeta.extractRepo, htruthy, Option.bind, hparse, hhost, hparts]
    simp
  · simp only [UpdateDownloads.extractRepo, htruthy, Option.bind, hparse, hparts]
    simp

/-- An instance of C5, with the parser of plain URLs: a link to a release page. -/
theorem extractRepo_github_witness :
    UpdateAppMeta.extractRepo plainURL (some "https://github.com/foo/bar/releases/tag/v1".toList)
      = some "foo/bar".toList
    ∧ UpdateDownloads.extractRepo plainURL
        (some "https://github.com/foo/bar/releases/tag/v1".toList)
      = some "foo/bar".toList :=
  extractRepo_github plainURL "foo".toList "bar".toList "/releases/tag/v1".toList
    (by decide) (by decide) (by decide) (by decide)
    (Or.inr ⟨"releases/tag/v1".toList, by decide⟩) (by decide)

/-- C6, as stated, fails for `update-app-meta.mjs`: a URL of another host with two path
segments parses, and `extractRepo` returns nothing for it. -/
theorem extractRepo_any_host_counterexample :
    ¬ (∀ (newURL : Str → Option URL) (url : Option Str) (u : URL) (p0 p1 : Str)
        (more : List Str),
        url.bind newURL = some u →
        (split '/' u.pathname).filter (fun part => !part.isEmpty) = p0 :: p1 :: more →
        UpdateAppMeta.extractRepo newURL url = some (p0 ++ '/' :: p1)) := by
  intro h
  have h1 := h plainURL (some "https://gitlab.com/foo/bar".toList)
    { hostname := "gitlab.com".toList, pathname := "/foo/bar".toList }
    "foo".toList "bar".toList [] (by decide) (by decide)
  revert h1
  decide

/-- C6, amended. `extractRepo` is total.  It returns nothing when the value is absent or empty,
when the platform refuses it as a URL, or when its path has fewer than two non-empty
segments; in `update-app-meta.mjs` also when the host name does not contain `github.com`.
Otherwise it returns the first two non-empty segments of the path joined by `/`: in
`update-downloads.mjs` whatever the host, in `update-app-meta.mjs` for a host name that
contains `github.com`.  The segments are the non-empty pieces of the path between its `/`. -/
theorem extractRepo_cases (newURL : Str → Option URL) (url : Option Str) :
    ((truthy url = false ∨ url.bind newURL = none) →
        UpdateAppMeta.extractRepo newURL url = none
        ∧ UpdateDownloads.extractRepo newURL url = none)
    ∧ (∀ u, truthy url = true → url.bind newURL = some u →
        (((split '/' u.pathname).filter (fun part => !part.isEmpty)).length < 2 →
            UpdateAppMeta.extractRepo newURL url = none
            ∧ UpdateDownloads.extractRepo newURL url = none)
        ∧ (includes u.hostname githubCom = false →
            UpdateAppMeta.extractRepo newURL url = none)
        ∧ (∀ p0 p1 more,
            (split '/' u.pathname).filter (fun part => !part.isEmpty) = p0 :: p1 :: more →
            UpdateDownloads.extractRepo newURL url = some (p0 ++ '/' :: p1)
            ∧ (includes u.hostname githubCom = true →
                UpdateAppMeta.extractRepo newURL url = some (p0 ++ '/' :: p1)))
        ∧ (∀ part ∈ (split '/' u.pathname).filter (fun part => !part.isEmpty),
            part ≠ [] ∧ '/' ∉ part)
        ∧ List.intercalate ['/'] (split '/' u.pathname) = u.pathname) := by
  refine ⟨?_, ?_⟩
  · rintro (h | h)
    · simp [UpdateAppMeta.extractRepo, UpdateDownloads.extractRepo, h]
    · by_cases ht : truthy url = true <;>
        simp [UpdateAppMeta.extractRepo, UpdateDownloads.extractRepo, h, ht]
  · intro u ht hu
    refine ⟨?_, ?_, ?_, ?_, intercalate_split '/' u.pathname⟩
    · intro hlen
      have hmatch : ∀ parts : List Str, parts.length < 2 →
          (match parts with
            | p0 :: p1 :: _ => some (p0 ++ '/' :: p1)
            | _ => none) = none := by
        intro parts hp
        match parts, hp with
        | [], _ => rfl
        | [_], _ => rfl
        | _ :: _ :: _, hp => simp only [List.length_cons] at hp; omega
      constructor
      · simp only [UpdateAppMeta.extractRepo, ht, hu]
        by_cases hh : includes u.hostname githubCom = true
        · simp [hh, hmatch _ hlen]
        · simp [hh]
      · simp only [UpdateDownloads.extractRepo, ht, hu]
        simp [hmatch _ hlen]
    · intro hh
      simp [UpdateAppMeta.extractRepo, ht, hu, hh]
    · intro p0 p1 more hparts
      constructor
      · simp [UpdateDownloads.extractRepo, ht, hu, hparts]
      · intro hh
        simp [UpdateAppMeta.extractRepo, ht, hu, hh, hparts]
    · intro part hp
      rw [List.mem_filter] at hp
      refine ⟨?_, not_mem_of_mem_split '/' _ part hp.1⟩
      intro he
      rw [he] at hp
      simp at hp

/-- Instances of the amended C6, with the parser of plain URLs: a host that is not GitHub,
and a path of one segment. -/
theorem extractRepo_cases_witness :
    UpdateAppMeta.extractRepo plainURL (some "https://gitlab.com/foo/bar".toList) = none
    ∧ (UpdateDownloads.extractRepo plainURL (some "https://gitlab.com/foo/bar".toList)
        = some "foo/bar".toList
      ∧ (includes "gitlab.com".toList githubCom = true →
          UpdateAppMeta.extractRepo plainURL (some "https://gitlab.com/foo/bar".toList)
            = some "foo/bar".toList))
    ∧ (UpdateAppMeta.extractRepo plainURL (some "not a url".toList) = none
      ∧ UpdateDownloads.extractRepo plainURL (some "not a url".toList) = none) :=
  ⟨((extractRepo_cases plainURL (some "https://gitlab.com/foo/bar".toList)).2
      { hostname := "gitlab.com".toList, pathname := "/foo/bar".toList }
      (by decide) (by decide)).2.1 (by decide),
   ((extractRepo_cases plainURL (some "https://gitlab.com/foo/bar".toList)).2
      { hostname := "gitlab.com".toList, pathname := "/foo/bar".toList }
      (by decide) (by decide)).2.2.1 "foo".toList "bar".toList [] (by decide),
   (extractRepo_cases plainURL (some "not a url".toList)).1 (Or.inr (by decide))⟩

/-! ### `fetchReleases` -/

/-- From `page` on, with `n` full pages and then a page that is not full, the loop requests
these `n + 1` pages in order and adds what each of them holds. -/
theorem fetchLoop_spec (api : Nat → Response) (n : Nat) :
    ∀ (page fuel : Nat) (requested : List Nat) (allReleases : List Release),
      (∀ i, i < n → (api (page + i)).isFull = true) →
      (api (page + n)).isFull = false →
      n + 1 ≤ fuel →
      UpdateAppMeta.fetchLoop api fuel page requested allReleases
        = some (requested ++ List.range' page (n + 1),
            allReleases ++ ((List.range' page (n + 1)).map (fun p => (api p).releases)).flatten) := by
  induction n with
  | zero =>
    intro page fuel requested allReleases _ hstop hfuel
    obtain ⟨f, rfl⟩ : ∃ f, fuel = f + 1 := ⟨fuel - 1, by omega⟩
    simp only [Nat.add_zero] at hstop
    cases h : api page with
    | networkError => simp [UpdateAppMeta.fetchLoop, h, Response.releases]
    | notOk => simp [UpdateAppMeta.fetchLoop, h, Response.releases]
    | invalidBody => simp [UpdateAppMeta.fetchLoop, h, Response.releases]
    | ok body =>
      cases body with
      | none => simp [UpdateAppMeta.fetchLoop, h, Response.releases]
      | some releases =>
        rw [h] at hstop
        simp only [Response.isFull, decide_eq_false_iff_not, not_le] at hstop
        by_cases h0 : releases.length = 0
        · have : releases = [] := List.length_eq_zero.mp h0
          simp [UpdateAppMeta.fetchLoop, h, Response.releases, this]
        · simp [UpdateAppMeta.fetchLoop, h, Response.releases, h0, hstop]
  | succ n ih =>
    intro page fuel requested allReleases hfull hstop hfuel
    obtain ⟨f, rfl⟩ : ∃ f, fuel = f + 1 := ⟨fuel - 1, by omega⟩
    have hpage := hfull 0 (Nat.succ_pos n)
    simp only [Nat.add_zero] at hpage
    cases h : api page with
    | networkError => rw [h] at hpage; simp [Response.isFull] at hpage
    | notOk => rw [h] at hpage; simp [Response.isFull] at hpage
    | invalidBody => rw [h] at hpage; simp [Response.isFull] at hpage
    | ok body =>
      cases body with
      | none => rw [h] at hpage; simp [Response.isFull] at hpage
      | some releases =>
        rw [h] at hpage
        simp only [Response.isFull, decide_eq_true_eq] at hpage
        have h0 : ¬ releases.length = 0 := by omega
        have h100 : ¬ releases.length < 100 := by omega
        have hrec := ih (page + 1) f (requested ++ [page]) (allReleases ++ releases)
          (fun i hi => by
            have := hfull (i + 1) (by omega)
            rwa [show page + (i + 1) = page + 1 + i by omega] at this)
          (by rwa [show page + (n + 1) = page + 1 + n by omega] at hstop)
          (by omega)
        rw [UpdateAppMeta.fetchLoop]
        simp only [h, h0, h100, if_false]
        rw [hrec, List.range'_succ page (n + 1)]
        simp [Response.releases, h]

theorem sum_map_eq_length {α : Type} (f : α → Nat) (l : List α) (h : ∀ x ∈ l, f x = 1) :
    (l.map f).sum = l.length := by
  induction l with
  | nil => rfl
  | cons x xs ih =>
    simp only [List.map_cons, List.sum_cons, List.length_cons]
    rw [h x (List.mem_cons_self x xs), ih (fun y hy => h y (List.mem_cons_of_mem x hy))]
    omega

/-- C4. Let page `k` be the first page that is not a full page of the releases endpoint: a
failure of the network, a response that is not a success, an empty page, or a page of fewer
than 100 releases.  Then, given `k` iterations, `fetchReleases` requests the pages 1 to `k`
in order and returns, as a result and not an error, the releases of the pages 1 to `k` in the
order of the pages, where page `k` counts only when it is a success; when page `k` is a failure
or empty these are the releases of the pages before it.  A first page of 100 releases and a
second page of one, none a draft and each with one asset downloaded once, give the total
101. -/
theorem fetchReleases_spec :
    (∀ (api : Nat → Response) (k fuel : Nat),
      1 ≤ k →
      (∀ p, 1 ≤ p → p < k → (api p).isFull = true) →
      (api k).isFull = false →
      k ≤ fuel →
      UpdateAppMeta.fetchReleases api fuel
          = some (List.range' 1 k,
              ((List.range' 1 k).map (fun p => (api p).releases)).flatten)
      ∧ ((api k).releases = [] →
          UpdateAppMeta.fetchReleases api fuel
            = some (List.range' 1 k,
                ((List.range' 1 (k - 1)).map (fun p => (api p).releases)).flatten))
      ∧ (api k).releases.length < 100)
    ∧ (∀ (api : Nat → Response) (fuel : Nat) (page1 : List Release) (last : Release),
      api 1 = Response.ok (some page1) →
      api 2 = Response.ok (some [last]) →
      page1.length = 100 →
      (∀ r ∈ page1 ++ [last],
        r.draft = false ∧ r.assets.map (fun a => a.download_count) = [1]) →
      2 ≤ fuel →
      (UpdateAppMeta.fetchReleases api fuel).map
          (fun result => UpdateAppMeta.calculateDownloads result.2) = some 101) := by
  have main : ∀ (api : Nat → Response) (k fuel : Nat),
      1 ≤ k →
      (∀ p, 1 ≤ p → p < k → (api p).isFull = true) →
      (api k).isFull = false →
      k ≤ fuel →
      UpdateAppMeta.fetchReleases api fuel
          = some (List.range' 1 k,
              ((List.range' 1 k).map (fun p => (api p).releases)).flatten) := by
    intro api k fuel hk hfull hstop hfuel
    obtain ⟨n, rfl⟩ : ∃ n, k = n + 1 := ⟨k - 1, by omega⟩
    have := fetchLoop_spec api n 1 fuel [] []
      (fun i hi => hfull (1 + i) (by omega) (by omega))
      (by rwa [Nat.add_comm 1 n]) hfuel
    simpa [UpdateAppMeta.fetchReleases] using this
  refine ⟨?_, ?_⟩
  · intro api k fuel hk hfull hstop hfuel
    refine ⟨main api k fuel hk hfull hstop hfuel, ?_, ?_⟩
    · intro hnone
      rw [main api k fuel hk hfull hstop hfuel]
      obtain ⟨n, rfl⟩ : ∃ n, k = n + 1 := ⟨k - 1, by omega⟩
      rw [List.range'_concat]
      simp only [Nat.one_mul, Nat.add_sub_cancel, List.map_append, List.map_cons, List.map_nil,
        List.flatten_append]
      rw [show 1 + n = n + 1 by omega, hnone]
      simp
    · cases h : api k with
      | networkError => simp [Response.releases]
      | notOk => simp [Response.releases]
      | invalidBody => simp [Response.releases]
      | ok body =>
        cases body with
        | none => simp [Response.releases]
        | some releases =>
          rw [h] at hstop
          simpa [Response.isFull, Response.releases] using hstop
  · intro api fuel page1 last h1 h2 hlen hall hfuel
    have hres := main api 2 fuel (by omega)
      (fun p hp1 hp2 => by
        have : p = 1 := by omega
        subst this
        simp [h1, Response.isFull, hlen])
      (by simp [h2, Response.isFull]) hfuel
    rw [hres]
    simp only [Option.map_some', Option.some.injEq]
    have hflat : ((List.range' 1 2).map (fun p => (api p).releases)).flatten
        = page1 ++ [last] := by
      simp [List.range'_succ, h1, h2, Response.releases]
    rw [hflat, calculateDownloads_eq_sum]
    have hkeep : (page1 ++ [last]).filter (fun r => decide (r.draft = false))
        = page1 ++ [last] := by
      rw [List.filter_eq_self]
      intro r hr
      simp [(hall r hr).1]
    rw [hkeep, sum_map_eq_length]
    · simp [hlen]
    · intro r hr
      rw [(hall r hr).2]
      rfl

/-- An instance of C4: the scenario of two pages, with fuel for five requests. -/
theorem fetchReleases_spec_witness :
    (UpdateAppMeta.fetchReleases twoPages 5
        = some (List.range' 1 2,
            ((List.range' 1 2).map (fun p => (twoPages p).releases)).flatten)
      ∧ ((twoPages 2).releases = [] →
          UpdateAppMeta.fetchReleases twoPages 5
            = some (List.range' 1 2,
                ((List.range' 1 (2 - 1)).map (fun p => (twoPages p).releases)).flatten))
      ∧ (twoPages 2).releases.length < 100)
    ∧ (UpdateAppMeta.fetchReleases twoPages 5).map
          (fun result => UpdateAppMeta.calculateDownloads result.2) = some 101 :=
  ⟨fetchReleases_spec.1 twoPages 2 5 (by decide)
      (fun p hp1 hp2 => by
        have hp : p = 1 := by omega
        subst hp
        decide)
      (by decide) (by decide),
   fetchReleases_spec.2 twoPages 5 (List.replicate 100 oneDownload) oneDownload
      (by decide) (by decide) (by decide) (by decide) (by decide)⟩

/-! ### Sanitation of the catalog -/

theorem any_key_filter {V : Type} (k1 k2 : Str) (h : k1 ≠ k2) (fields : List (Str × V)) :
    (fields.filter (fun field => field.1 != k1)).any (fun field => field.1 == k2)
      = fields.any (fun field => field.1 == k2) := by
  induction fields with
  | nil => rfl
  | cons field fields ih =>
    by_cases hk : field.1 = k1
    · have h2 : (field.1 == k2) = false := by
        rw [beq_eq_false_iff_ne]
        exact fun e => h (hk.symm.trans e)
      have h1 : (field.1 != k1) = false := by
        rw [bne_eq_false_iff_eq]
        exact hk
      rw [List.filter_cons, h1, List.any_cons, h2, Bool.false_or]
      exact ih
    · have h1 : (field.1 != k1) = true := by
        rw [bne_iff_ne]
        exact hk
      rw [List.filter_cons, h1, if_pos rfl, List.any_cons, List.any_cons, ih]

theorem has_delete_of_ne {V : Type} (k1 k2 : Str) (h : k1 ≠ k2) (app : App V) :
    (app.delete k1).has k2 = app.has k2 :=
  any_key_filter k1 k2 h app.rest

theorem delete_of_not_has {V : Type} (key : Str) (app : App V) (h : app.has key = false) :
    app.delete key = app := by
  cases app with
  | mk id name githubUrl rest =>
    simp only [App.has, App.delete] at h ⊢
    congr
    rw [List.filter_eq_self]
    intro field hf
    have := List.any_eq_false.mp h field hf
    simpa using this

theorem delete_delete_eq {V : Type} (app : App V) :
    (app.delete downloadsKey).delete lastUpdatedKey = withoutLegacy app := by
  simp [App.delete, withoutLegacy, List.filter_filter, Bool.and_comm]

theorem stripApp_eq {V : Type} (state : List (App V) × Bool) (app : App V) :
    UpdateAppMeta.stripApp state app
      = (state.1 ++ [withoutLegacy app], state.2 || hasLegacy app) := by
  have hne : downloadsKey ≠ lastUpdatedKey := by decide
  rw [← delete_delete_eq]
  unfold UpdateAppMeta.stripApp hasLegacy
  cases hd : app.has downloadsKey <;> cases hl : app.has lastUpdatedKey
  · simp [hd, hl, delete_of_not_has _ _ hd, delete_of_not_has _ _ hl]
  · simp [hd, hl, delete_of_not_has _ _ hd]
  · have h2 : (app.delete downloadsKey).has lastUpdatedKey = false := by
      rw [has_delete_of_ne _ _ hne, hl]
    simp [hd, h2, delete_of_not_has _ _ h2]
  · have h2 : (app.delete downloadsKey).has lastUpdatedKey = true := by
      rw [has_delete_of_ne _ _ hne, hl]
    simp [hd, h2]

theorem foldl_stripApp {V : Type} (apps : List (App V)) :
    ∀ state : List (App V) × Bool,
      apps.foldl UpdateAppMeta.stripApp state
        = (state.1 ++ apps.map withoutLegacy, state.2 || apps.any hasLegacy) := by
  induction apps with
  | nil => intro state; simp
  | cons app apps ih =>
    intro state
    rw [List.foldl_cons, ih, stripApp_eq]
    simp [Bool.or_assoc]

theorem stripLegacy_eq {V : Type} (apps : List (App V)) :
    UpdateAppMeta.stripLegacy apps = (apps.map withoutLegacy, apps.any hasLegacy) := by
  simp [UpdateAppMeta.stripLegacy, foldl_stripApp]

theorem withoutLegacy_eq_self_iff {V : Type} (app : App V) :
    withoutLegacy app = app ↔ hasLegacy app = false := by
  cases app with
  | mk id name githubUrl rest =>
    simp only [withoutLegacy, hasLegacy, App.has, App.mk.injEq, true_and, List.filter_eq_self,
      Bool.or_eq_false_iff, List.any_eq_false]
    constructor
    · intro h
      refine ⟨fun field hf => ?_, fun field hf => ?_⟩
      · have := h field hf
        rw [Bool.and_eq_true, bne_iff_ne, bne_iff_ne] at this
        rw [beq_iff_eq]
        exact this.1
      · have := h field hf
        rw [Bool.and_eq_true, bne_iff_ne, bne_iff_ne] at this
        rw [beq_iff_eq]
        exact this.2
    · intro h field hf
      have h1 := h.1 field hf
      have h2 := h.2 field hf
      rw [beq_iff_eq] at h1 h2
      rw [Bool.and_eq_true, bne_iff_ne, bne_iff_ne]
      exact ⟨h1, h2⟩

theorem hasLegacy_withoutLegacy {V : Type} (app : App V) :
    hasLegacy (withoutLegacy app) = false := by
  rw [← withoutLegacy_eq_self_iff]
  simp [withoutLegacy, List.filter_filter]

theorem map_withoutLegacy_eq_self_iff {V : Type} (apps : List (App V)) :
    apps.map withoutLegacy = apps ↔ apps.any hasLegacy = false := by
  induction apps with
  | nil => simp
  | cons app apps ih =>
    simp only [List.map_cons, List.cons.injEq, List.any_cons, Bool.or_eq_false_iff, ih,
      withoutLegacy_eq_self_iff]

/-- C10. The sanitation step removes `downloads` and `lastUpdated` from every entry and leaves
the other fields, their order and the order of the entries as they were; it writes the catalog
file, with the cleaned catalog, exactly when some entry had one of the two fields, which is
exactly when the catalog changed; and run on its own output it changes nothing and writes
nothing. -/
theorem sanitation_idempotent {V : Type} (appsData : List (App V)) :
    (UpdateAppMeta.sanitation appsData).1
        = appsData.map (fun app =>
            { app with
              rest := List.filter
                (fun field => field.1 != downloadsKey && field.1 != lastUpdatedKey) app.rest })
    ∧ (∀ app ∈ (UpdateAppMeta.sanitation appsData).1,
        app.has downloadsKey = false ∧ app.has lastUpdatedKey = false)
    ∧ ((UpdateAppMeta.sanitation appsData).2
        = if (∃ app ∈ appsData, ∃ field ∈ app.rest,
              field.1 = downloadsKey ∨ field.1 = lastUpdatedKey)
          then some (UpdateAppMeta.sanitation appsData).1 else none)
    ∧ ((UpdateAppMeta.sanitation appsData).2.isSome = true
        ↔ (UpdateAppMeta.sanitation appsData).1 ≠ appsData)
    ∧ UpdateAppMeta.sanitation (UpdateAppMeta.sanitation appsData).1
        = ((UpdateAppMeta.sanitation appsData).1, none) := by
  have hany : appsData.any hasLegacy = true
      ↔ ∃ app ∈ appsData, ∃ field ∈ app.rest,
          field.1 = downloadsKey ∨ field.1 = lastUpdatedKey := by
    simp only [List.any_eq_true, hasLegacy, App.has, Bool.or_eq_true, beq_iff_eq]
    constructor
    · rintro ⟨app, ha, ⟨field, hf, hk⟩ | ⟨field, hf, hk⟩⟩
      · exact ⟨app, ha, field, hf, Or.inl hk⟩
      · exact ⟨app, ha, field, hf, Or.inr hk⟩
    · rintro ⟨app, ha, field, hf, hk | hk⟩
      · exact ⟨app, ha, Or.inl ⟨field, hf, hk⟩⟩
      · exact ⟨app, ha, Or.inr ⟨field, hf, hk⟩⟩
  have hclean : (appsData.map withoutLegacy).any hasLegacy = false := by
    simp [List.any_eq_false, hasLegacy_withoutLegacy]
  refine ⟨?_, ?_, ?_, ?_, ?_⟩
  · simp only [UpdateAppMeta.sanitation, stripLegacy_eq]
    rfl
  · intro app happ
    simp only [UpdateAppMeta.sanitation, stripLegacy_eq, List.mem_map] at happ
    obtain ⟨orig, _, rfl⟩ := happ
    have := hasLegacy_withoutLegacy orig
    simpa [hasLegacy] using this
  · simp only [UpdateAppMeta.sanitation, stripLegacy_eq]
    by_cases h : appsData.any hasLegacy = true
    · rw [if_pos h, if_pos (hany.mp h)]
    · rw [if_neg h, if_neg (fun hex => h (hany.mpr hex))]
  · simp only [UpdateAppMeta.sanitation, stripLegacy_eq, ne_eq, map_withoutLegacy_eq_self_iff]
    cases appsData.any hasLegacy <;> simp
  · simp only [UpdateAppMeta.sanitation, stripLegacy_eq, hclean]
    have : (appsData.map withoutLegacy).map withoutLegacy = appsData.map withoutLegacy :=
      (map_withoutLegacy_eq_self_iff _).mpr hclean
    simp [this]

/-! ### The entries of the metadata file -/

theorem getProperty_upsert_same {β : Type} (key : Str) (value : β)
    (obj : List (Str × β)) : getProperty key (upsert key value obj) = some value := by
  induction obj with
  | nil => simp [upsert, getProperty]
  | cons kv rest ih =>
    obtain ⟨k, v⟩ := kv
    by_cases hk : k = key
    · simp [upsert, getProperty, hk]
    · simp [upsert, getProperty, hk, ih]

theorem getProperty_upsert_of_ne {β : Type} (key other : Str) (value : β)
    (h : other ≠ key) (obj : List (Str × β)) :
    getProperty other (upsert key value obj) = getProperty other obj := by
  have hne : ¬ key = other := fun e => h e.symm
  induction obj with
  | nil => simp [upsert, getProperty, hne]
  | cons kv rest ih =>
    obtain ⟨k, v⟩ := kv
    by_cases hk : k = key
    · subst hk
      simp [upsert, getProperty, hne]
    · by_cases ho : k = other
      · subst ho
        simp [upsert, getProperty, hk]
      · simp [upsert, getProperty, hk, ho, ih]

/-- An assignment to a key other than `__proto__` is read back. -/
theorem getProperty_setProperty_same {β : Type} (key : Str) (value : β)
    (hproto : key ≠ protoKey) (obj : List (Str × β)) :
    getProperty key (setProperty key value obj) = some value := by
  rw [setProperty, if_neg hproto]
  exact getProperty_upsert_same key value obj

/-- An assignment to the key `__proto__` leaves the own properties as they were. -/
theorem setProperty_protoKey {β : Type} (value : β) (obj : List (Str × β)) :
    setProperty protoKey value obj = obj := by
  rw [setProperty, if_pos rfl]

theorem getProperty_setProperty_of_ne {β : Type} (key other : Str) (value : β)
    (h : other ≠ key) (obj : List (Str × β)) :
    getProperty other (setProperty key value obj) = getProperty other obj := by
  unfold setProperty
  split_ifs
  · rfl
  · exact getProperty_upsert_of_ne key other value h obj

/-- A repository that was extracted is a non-empty text. -/
theorem truthy_extractRepo (newURL : Str → Option URL) (url : Option Str) (repo : Str)
    (h : UpdateAppMeta.extractRepo newURL url = some repo) : truthy (some repo) = true := by
  unfold UpdateAppMeta.extractRepo at h
  split_ifs at h
  split at h
  · exact Option.noConfusion h
  · split_ifs at h
    split at h
    · simp only [Option.some.injEq] at h
      subst h
      cases ‹Str› <;> simp [truthy]
    · exact Option.noConfusion h

/-- The entry is not empty exactly when there are downloads or a date. -/
theorem buildEntry_nonempty (downloads : Nat) (lastUpdated : Option Str) :
    (((UpdateAppMeta.buildEntry downloads lastUpdated).downloads.isSome
        || (UpdateAppMeta.buildEntry downloads lastUpdated).lastUpdated.isSome) = true)
      ↔ (0 < downloads ∨ truthy lastUpdated = true) := by
  unfold UpdateAppMeta.buildEntry
  by_cases hd : 0 < downloads
  · simp [hd]
  · cases hl : truthy lastUpdated
    · simp [hd]
    · cases lastUpdated with
      | none => simp [truthy] at hl
      | some d => simp [hd]

theorem processApp_of_repo {V : Type} (newURL : Str → Option URL)
    (fetchReleases : Str → List Release) (getTime : Str → Option Int)
    (meta : List (Str × MetaValue)) (app : App V) (repo : Str)
    (h : UpdateAppMeta.extractRepo newURL app.githubUrl = some repo) :
    UpdateAppMeta.processApp newURL fetchReleases getTime meta app
      = if 0 < UpdateAppMeta.calculateDownloads (fetchReleases repo)
            ∨ truthy (UpdateAppMeta.getLatestReleaseDate getTime (fetchReleases repo)) = true
        then setProperty app.id
          (MetaValue.entry (UpdateAppMeta.buildEntry
            (UpdateAppMeta.calculateDownloads (fetchReleases repo))
            (UpdateAppMeta.getLatestReleaseDate getTime (fetchReleases repo)))) meta
        else meta := by
  have ht := truthy_extractRepo newURL app.githubUrl repo h
  unfold UpdateAppMeta.processApp
  simp only [h, ht, Bool.not_true, Option.getD_some]
  by_cases hc : 0 < UpdateAppMeta.calculateDownloads (fetchReleases repo)
      ∨ truthy (UpdateAppMeta.getLatestReleaseDate getTime (fetchReleases repo)) = true
  · rw [if_pos hc]
    have := (buildEntry_nonempty _ _).mpr hc
    simp [this]
  · rw [if_neg hc]
    have : ¬ ((((UpdateAppMeta.buildEntry
          (UpdateAppMeta.calculateDownloads (fetchReleases repo))
          (UpdateAppMeta.getLatestReleaseDate getTime (fetchReleases repo))).downloads.isSome
        || (UpdateAppMeta.buildEntry
          (UpdateAppMeta.calculateDownloads (fetchReleases repo))
          (UpdateAppMeta.getLatestReleaseDate getTime (fetchReleases repo))).lastUpdated.isSome)
        = true)) := fun hb => hc ((buildEntry_nonempty _ _).mp hb)
    simp [this]

/-- One pass of the loop touches no key but the identifier of its entry. -/
theorem getProperty_processApp_of_ne {V : Type} (newURL : Str → Option URL)
    (fetchReleases : Str → List Release) (getTime : Str → Option Int)
    (meta : List (Str × MetaValue)) (app : App V) (key : Str) (h : key ≠ app.id) :
    getProperty key (UpdateAppMeta.processApp newURL fetchReleases getTime meta app)
      = getProperty key meta := by
  unfold UpdateAppMeta.processApp
  simp only
  split_ifs
  · rfl
  · exact getProperty_setProperty_of_ne _ _ _ h _
  · rfl

theorem getProperty_foldl_processApp_of_not_mem {V : Type} (newURL : Str → Option URL)
    (fetchReleases : Str → List Release) (getTime : Str → Option Int) (key : Str)
    (apps : List (App V)) :
    ∀ meta : List (Str × MetaValue), key ∉ apps.map (fun a => a.id) →
      getProperty key (apps.foldl (UpdateAppMeta.processApp newURL fetchReleases getTime) meta)
        = getProperty key meta := by
  induction apps with
  | nil => intro meta _; rfl
  | cons a apps ih =>
    intro meta hk
    simp only [List.map_cons, List.mem_cons, not_or] at hk
    rw [List.foldl_cons, ih _ hk.2, getProperty_processApp_of_ne _ _ _ _ _ _ hk.1]

theorem getProperty_foldl_processApp {V : Type} (newURL : Str → Option URL)
    (fetchReleases : Str → List Release) (getTime : Str → Option Int)
    (app : App V) (repo : Str)
    (hrepo : UpdateAppMeta.extractRepo newURL app.githubUrl = some repo)
    (hproto : app.id ≠ protoKey)
    (apps : List (App V)) :
    ∀ meta : List (Str × MetaValue), (apps.map (fun a => a.id)).Nodup → app ∈ apps →
      getProperty app.id
          (apps.foldl (UpdateAppMeta.processApp newURL fetchReleases getTime) meta)
        = if 0 < UpdateAppMeta.calculateDownloads (fetchReleases repo)
              ∨ truthy (UpdateAppMeta.getLatestReleaseDate getTime (fetchReleases repo)) = true
          then some (MetaValue.entry (UpdateAppMeta.buildEntry
            (UpdateAppMeta.calculateDownloads (fetchReleases repo))
            (UpdateAppMeta.getLatestReleaseDate getTime (fetchReleases repo))))
          else getProperty app.id meta := by
  induction apps with
  | nil => intro meta _ happ; simp at happ
  | cons a apps ih =>
    intro meta hids happ
    simp only [List.map_cons, List.nodup_cons] at hids
    rw [List.foldl_cons]
    rcases List.mem_cons.mp happ with rfl | hmem
    · rw [getProperty_foldl_processApp_of_not_mem _ _ _ _ _ _ hids.1,
        processApp_of_repo _ _ _ _ _ _ hrepo]
      split_ifs
      · exact getProperty_setProperty_same _ _ hproto _
      · rfl
    · have hne : app.id ≠ a.id := by
        intro e
        exact hids.1 (e ▸ List.mem_map_of_mem (fun a => a.id) hmem)
      rw [ih _ hids.2 hmem, getProperty_processApp_of_ne _ _ _ _ _ _ hne]

/-- The loop reads the identifier and the link of an entry only. -/
theorem processApp_withoutLegacy {V : Type} (newURL : Str → Option URL)
    (fetchReleases : Str → List Release) (getTime : Str → Option Int)
    (meta : List (Str × MetaValue)) (app : App V) :
    UpdateAppMeta.processApp newURL fetchReleases getTime meta (withoutLegacy app)
      = UpdateAppMeta.processApp newURL fetchReleases getTime meta app := rfl

/-- What `getLatestReleaseDate` returns, whatever the dates: nothing when no release is stable,
and otherwise the text before the first `T` of the timestamp of a stable release. -/
theorem getLatestReleaseDate_shape (getTime : Str → Option Int) (releases : List Release) :
    ((∀ r ∈ releases, ¬ (r.draft = false ∧ r.prerelease = false))
        ∧ UpdateAppMeta.getLatestReleaseDate getTime releases = none)
    ∨ ∃ first ∈ releases, first.draft = false ∧ first.prerelease = false
        ∧ UpdateAppMeta.getLatestReleaseDate getTime releases
          = (split 'T' first.published_at).head? := by
  have hfilter : ∀ r, r ∈ releases.filter (fun r => !r.draft && !r.prerelease)
      ↔ r ∈ releases ∧ r.draft = false ∧ r.prerelease = false := by
    intro r
    simp [List.mem_filter]
  by_cases hnil : releases.filter (fun r => !r.draft && !r.prerelease) = []
  · left
    refine ⟨fun r hr hq => ?_, by simp [UpdateAppMeta.getLatestReleaseDate, hnil]⟩
    have := (hfilter r).mpr ⟨hr, hq⟩
    rw [hnil] at this
    simp at this
  · right
    have hlen : (releases.filter (fun r => !r.draft && !r.prerelease)).length ≠ 0 := by
      simpa [List.length_eq_zero] using hnil
    cases hs : sort (UpdateAppMeta.compareByDate getTime)
        (releases.filter (fun r => !r.draft && !r.prerelease)) with
    | nil =>
      obtain ⟨r0, hr0⟩ := List.exists_mem_of_ne_nil _ hnil
      have := (mem_sort (UpdateAppMeta.compareByDate getTime) r0 _).mpr hr0
      rw [hs] at this
      simp at this
    | cons first others =>
      have hmem : first ∈ releases.filter (fun r => !r.draft && !r.prerelease) := by
        rw [← mem_sort (UpdateAppMeta.compareByDate getTime), hs]
        exact List.mem_cons_self _ _
      have hq := (hfilter first).mp hmem
      refine ⟨first, hq.1, hq.2.1, hq.2.2, ?_⟩
      simp only [UpdateAppMeta.getLatestReleaseDate, hlen, if_false, hs]

/-- The entries of the metadata file for identifiers other than `__proto__`.  In a catalog
whose identifiers are distinct, for an entry whose identifier is neither the reserved key nor
`__proto__`, whose repository was extracted and whose fetched releases carry valid dates where
they are neither draft nor prerelease, the metadata file holds something under the identifier
exactly when the download total of the releases fetched is positive or `getLatestReleaseDate`
gave a date (a non-empty text); it is then the entry with `downloads` only for a positive total
and `lastUpdated` only for a date.  Where no publish timestamp is empty or starts with `T`, a
date is given exactly when some release is neither draft nor prerelease. -/
theorem main_entry_iff {V : Type} (newURL : Str → Option URL)
    (fetchReleases : Str → List Release) (getTime : Str → Option Int) (now : Str)
    (appsData : List (App V)) (app : App V) (repo : Str)
    (hids : (appsData.map (fun a => a.id)).Nodup)
    (hreserved : app.id ≠ generatedAtKey)
    (hproto : app.id ≠ protoKey)
    (happ : app ∈ appsData)
    (hrepo : UpdateAppMeta.extractRepo newURL app.githubUrl = some repo)
    (_hvalid : ∀ r ∈ fetchReleases repo, r.draft = false → r.prerelease = false →
      (getTime r.published_at).isSome = true) :
    ((getProperty app.id
          (UpdateAppMeta.main newURL fetchReleases getTime now appsData).outputFile).isSome = true
        ↔ (0 < UpdateAppMeta.calculateDownloads (fetchReleases repo)
            ∨ truthy (UpdateAppMeta.getLatestReleaseDate getTime (fetchReleases repo)) = true))
    ∧ getProperty app.id
          (UpdateAppMeta.main newURL fetchReleases getTime now appsData).outputFile
        = (if 0 < UpdateAppMeta.calculateDownloads (fetchReleases repo)
              ∨ truthy (UpdateAppMeta.getLatestReleaseDate getTime (fetchReleases repo)) = true
          then some (MetaValue.entry
            { downloads :=
                if 0 < UpdateAppMeta.calculateDownloads (fetchReleases repo)
                then some (UpdateAppMeta.calculateDownloads (fetchReleases repo)) else none
              lastUpdated :=
                if truthy (UpdateAppMeta.getLatestReleaseDate getTime (fetchReleases repo))
                then UpdateAppMeta.getLatestReleaseDate getTime (fetchReleases repo)
                else none })
          else none)
    ∧ ((∀ r ∈ fetchReleases repo,
          r.published_at.head? ≠ none ∧ r.published_at.head? ≠ some 'T') →
        (truthy (UpdateAppMeta.getLatestReleaseDate getTime (fetchReleases repo)) = true
          ↔ ∃ r ∈ fetchReleases repo, r.draft = false ∧ r.prerelease = false)) := by
  have hmain : getProperty app.id
      (UpdateAppMeta.main newURL fetchReleases getTime now appsData).outputFile
        = (if 0 < UpdateAppMeta.calculateDownloads (fetchReleases repo)
              ∨ truthy (UpdateAppMeta.getLatestReleaseDate getTime (fetchReleases repo)) = true
          then some (MetaValue.entry (UpdateAppMeta.buildEntry
            (UpdateAppMeta.calculateDownloads (fetchReleases repo))
            (UpdateAppMeta.getLatestReleaseDate getTime (fetchReleases repo))))
          else none) := by
    have hfold := getProperty_foldl_processApp newURL fetchReleases getTime
      (withoutLegacy app) repo hrepo hproto (appsData.map withoutLegacy)
      [(generatedAtKey, MetaValue.generatedAt now)]
      (by
        have : (appsData.map withoutLegacy).map (fun a => a.id)
            = appsData.map (fun a => a.id) := by
          rw [List.map_map]
          rfl
        rw [this]
        exact hids)
      (List.mem_map_of_mem withoutLegacy happ)
    have hne : ¬ generatedAtKey = app.id := fun e => hreserved e.symm
    have hnone : getProperty app.id [(generatedAtKey, MetaValue.generatedAt now)] = none := by
      simp [getProperty, hne]
    simp only [UpdateAppMeta.main, UpdateAppMeta.sanitation, stripLegacy_eq]
    rw [show (withoutLegacy app).id = app.id from rfl, hnone] at hfold
    exact hfold
  refine ⟨?_, ?_, ?_⟩
  · rw [hmain]
    split_ifs with hc
    · simp [hc]
    · simp [hc]
  · rw [hmain]
    rfl
  · intro hdates
    rcases getLatestReleaseDate_shape getTime (fetchReleases repo) with
      ⟨hno, hres⟩ | ⟨first, hmem, hd, hp, hres⟩
    · rw [hres]
      constructor
      · intro h
        simp [truthy] at h
      · rintro ⟨r, hr, hq⟩
        exact absurd hq (hno r hr)
    · obtain ⟨date, hdate, _, hshape⟩ := split_head 'T' first.published_at
      rw [hres, hdate]
      constructor
      · intro _
        exact ⟨first, hmem, hd, hp⟩
      · intro _
        have hfirst := hdates first hmem
        cases date with
        | nil =>
          rcases hshape with hs | ⟨rest, hs⟩
          · rw [hs] at hfirst
            simp at hfirst
          · rw [hs] at hfirst
            simp at hfirst
        | cons c cs => simp [truthy]

/-- An instance: in the sample catalog the entry with releases gets both fields, and the entry
whose repository has no release gets nothing. -/
theorem main_entry_iff_witness :
    getProperty "bar".toList
        (UpdateAppMeta.main plainURL sampleFetch isoTime "2026-01-01T00:00:00.000Z".toList
          sampleCatalog).outputFile
      = some (MetaValue.entry { downloads := some 16, lastUpdated := some "2024-03-05".toList })
    ∧ ((getProperty "empty".toList
        (UpdateAppMeta.main plainURL sampleFetch isoTime "2026-01-01T00:00:00.000Z".toList
          sampleCatalog).outputFile).isSome = true
      ↔ (0 < UpdateAppMeta.calculateDownloads (sampleFetch "foo/empty".toList)
          ∨ truthy (UpdateAppMeta.getLatestReleaseDate isoTime
              (sampleFetch "foo/empty".toList)) = true)) :=
  ⟨((main_entry_iff plainURL sampleFetch isoTime "2026-01-01T00:00:00.000Z".toList
      sampleCatalog
      { id := "bar".toList, name := "Bar".toList
        githubUrl := some "https://github.com/foo/bar".toList
        rest := [("downloads".toList, 4), ("tags".toList, 0), ("lastUpdated".toList, 9)] }
      "foo/bar".toList (by decide) (by decide) (by decide) (by decide) (by decide)
      (by decide)).2.1).trans (by decide),
   (main_entry_iff plainURL sampleFetch isoTime "2026-01-01T00:00:00.000Z".toList
      sampleCatalog
      { id := "empty".toList, name := "Empty".toList
        githubUrl := some "https://github.com/foo/empty".toList
        rest := [("tags".toList, 1)] }
      "foo/empty".toList (by decide) (by decide) (by decide) (by decide) (by decide)
      (by decide)).1⟩

/-- C3, at the identifier `__proto__`.  The catalog holds one entry with that identifier, whose
repository is extracted and whose releases total 16 downloads with the date 2024-03-05, so
that the claim asks for an entry; the assignment `meta[app.id] = entry` of line 118 then
replaces the prototype of `meta`, and the metadata file is written with `_generatedAt` alone
and nothing under the identifier. -/
theorem main_proto_entry_missing :
    UpdateAppMeta.extractRepo plainURL (some "https://github.com/foo/bar".toList)
      = some "foo/bar".toList
    ∧ UpdateAppMeta.calculateDownloads (sampleFetch "foo/bar".toList) = 16
    ∧ UpdateAppMeta.getLatestReleaseDate isoTime (sampleFetch "foo/bar".toList)
      = some "2024-03-05".toList
    ∧ (UpdateAppMeta.main plainURL sampleFetch isoTime "2026-01-01T00:00:00.000Z".toList
        protoCatalog).outputFile
      = [(generatedAtKey, MetaValue.generatedAt "2026-01-01T00:00:00.000Z".toList)]
    ∧ getProperty "__proto__".toList
        (UpdateAppMeta.main plainURL sampleFetch isoTime "2026-01-01T00:00:00.000Z".toList
          protoCatalog).outputFile = none := by
  decide

/-! ### The love button -/

/-- A click on an idle button of a known user: the optimistic state. -/
theorem handleToggle_of_idle (w : Widget) (huser : truthy w.userId = true)
    (hidle : w.loading = false) :
    handleToggle w
      = { w with
          loved := !w.loved
          count := if (!w.loved) = true then w.count + 1 else w.count - 1
          cache := some { count := w.count + (if (!w.loved) = true then 1 else -1)
                          loved := !w.loved }
          loading := true
          inFlight := w.inFlight ++ [!w.loved] } := by
  simp [handleToggle, updateItem, huser, hidle]

/-- C7. On a button with count `c` and loved flag `l`, a known user and no toggle in flight,
`handleToggle` first shows loved `not l` and count `c + 1` (now loved) or `c - 1` (now
unloved), marks the toggle as in flight and sends one request; when the request fails (network
error, response that is not a success, unreadable body) the loved flag and the count shown are
`l` and `c` again and the in-flight flag is cleared. -/
theorem handleToggle_rollback (w : Widget) (huser : truthy w.userId = true)
    (hidle : w.loading = false) :
    (handleToggle w).loved = (!w.loved)
    ∧ (handleToggle w).count = (if (!w.loved) = true then w.count + 1 else w.count - 1)
    ∧ (handleToggle w).loading = true
    ∧ (handleToggle w).inFlight = w.inFlight ++ [!w.loved]
    ∧ ∀ result : PostResult, result.failed = true →
        (toggleSettled (!w.loved) result (handleToggle w)).loved = w.loved
        ∧ (toggleSettled (!w.loved) result (handleToggle w)).count = w.count
        ∧ (toggleSettled (!w.loved) result (handleToggle w)).loading = false
        ∧ (w.inFlight = [] →
            step (step (rendered w) Event.click) (Event.settled 0 result)
              = { state :=
                    { w with
                      cache := some { count := w.count + (if (!w.loved) = true then 1 else -1)
                                      loved := !w.loved } }
                  captured := capture w }) := by
  rw [handleToggle_of_idle w huser hidle]
  refine ⟨rfl, rfl, rfl, rfl, ?_⟩
  intro result hfailed
  have hcount : ∀ c : Int, c + 1 - 1 = c ∧ c - 1 + 1 = c := fun c => ⟨by omega, by omega⟩
  cases result with
  | ok data => simp [PostResult.failed] at hfailed
  | networkError =>
    refine ⟨?_, ?_, ?_, ?_⟩
    · simp [toggleSettled]
    · cases w.loved <;> simp [toggleSettled, hcount]
    · simp [toggleSettled]
    · intro hnone
      cases w with
      | mk userId count loved loading hasFetched cache inFlight =>
        simp only at hnone hidle huser
        subst hnone hidle
        cases loved <;>
          simp [step, rendered, capture, handleToggleOf, updateItem, toggleSettled, huser,
            hcount]
  | notOk =>
    refine ⟨?_, ?_, ?_, ?_⟩
    · simp [toggleSettled]
    · cases w.loved <;> simp [toggleSettled, hcount]
    · simp [toggleSettled]
    · intro hnone
      cases w with
      | mk userId count loved loading hasFetched cache inFlight =>
        simp only at hnone hidle huser
        subst hnone hidle
        cases loved <;>
          simp [step, rendered, capture, handleToggleOf, updateItem, toggleSettled, huser,
            hcount]
  | invalidBody =>
    refine ⟨?_, ?_, ?_, ?_⟩
    · simp [toggleSettled]
    · cases w.loved <;> simp [toggleSettled, hcount]
    · simp [toggleSettled]
    · intro hnone
      cases w with
      | mk userId count loved loading hasFetched cache inFlight =>
        simp only at hnone hidle huser
        subst hnone hidle
        cases loved <;>
          simp [step, rendered, capture, handleToggleOf, updateItem, toggleSettled, huser,
            hcount]

/-- An instance of C7: an unloved item that shows 5 shows loved and 6 after the click, and
unloved and 5 again after the request failed. -/
theorem handleToggle_rollback_witness :
    ((handleToggle sampleWidget).loved = true ∧ (handleToggle sampleWidget).count = 6)
    ∧ (toggleSettled true PostResult.notOk (handleToggle sampleWidget)).loved = false
    ∧ (toggleSettled true PostResult.notOk (handleToggle sampleWidget)).count = 5
    ∧ (toggleSettled true PostResult.notOk (handleToggle sampleWidget)).loading = false :=
  have h := handleToggle_rollback sampleWidget (by decide) (by decide)
  ⟨⟨h.1, h.2.1⟩, (h.2.2.2.2 PostResult.notOk (by decide)).1,
    (h.2.2.2.2 PostResult.notOk (by decide)).2.1,
    (h.2.2.2.2 PostResult.notOk (by decide)).2.2.1⟩

/-- C8. On a button with count `c` and loved flag `l`, a known user and no toggle in flight,
when the request of `handleToggle` succeeds with a loved value other than the optimistic
`not l`, the loved flag shown at the end is the value of the response, and the count shown
stays `c + 1` or `c - 1`, whatever count the response carries. -/
theorem handleToggle_disagreement (w : Widget) (data : Vote)
    (huser : truthy w.userId = true) (hidle : w.loading = false)
    (hdiffer : data.loved ≠ (!w.loved)) :
    (toggleSettled (!w.loved) (PostResult.ok data) (handleToggle w)).loved = data.loved
    ∧ (toggleSettled (!w.loved) (PostResult.ok data) (handleToggle w)).count
        = (if (!w.loved) = true then w.count + 1 else w.count - 1)
    ∧ (toggleSettled (!w.loved) (PostResult.ok data) (handleToggle w)).loading = false := by
  rw [handleToggle_of_idle w huser hidle]
  have hne : (data.loved != !w.loved) = true := by
    rw [bne_iff_ne]
    exact hdiffer
  refine ⟨?_, ?_, ?_⟩
  · simp only [toggleSettled, hne, if_true]
  · simp only [toggleSettled, hne, if_true]
  · simp only [toggleSettled]

/-- An instance of C8: the optimistic state is loved with count 6, the response says unloved
with count 5; the button ends unloved with count 6. -/
theorem handleToggle_disagreement_witness :
    (toggleSettled true (PostResult.ok { count := 5, loved := false })
        (handleToggle sampleWidget)).loved = false
    ∧ (toggleSettled true (PostResult.ok { count := 5, loved := false })
        (handleToggle sampleWidget)).count = 6
    ∧ (toggleSettled true (PostResult.ok { count := 5, loved := false })
        (handleToggle sampleWidget)).loading = false :=
  handleToggle_disagreement sampleWidget { count := 5, loved := false }
    (by decide) (by decide) (by decide)

/-- The handler of a render of the state itself is the handler of what that render captured. -/
theorem handleToggle_eq_handleToggleOf (w : Widget) :
    handleToggle w = handleToggleOf (capture w) w := rfl

/-- A handler whose render saw `loading` true ignores the click. -/
theorem handleToggleOf_of_loading (c : Captured) (w : Widget) (h : c.loading = true) :
    handleToggleOf c w = w := by
  simp [handleToggleOf, h]

theorem consistent_mount (userId : Option Str) (initialCount : Int)
    (preloadedState stored : Option Vote) :
    Consistent (mount userId initialCount preloadedState stored) := by
  unfold Consistent
  rfl

theorem consistent_step (m : Mounted) (e : Event) (h : Consistent m.state)
    (hclick : e = Event.click → m.captured = capture m.state) :
    Consistent (step m e).state := by
  unfold Consistent at h ⊢
  cases e with
  | click =>
    rw [show (step m Event.click).state = handleToggleOf m.captured m.state from rfl,
      hclick rfl, ← handleToggle_eq_handleToggleOf]
    by_cases hl : m.state.loading = true
    · have hsame : handleToggle m.state = m.state := by simp [handleToggle, hl]
      rw [hsame]
      exact h
    · have hidle : m.state.loading = false := by simpa using hl
      by_cases hu : truthy m.state.userId = true
      · rw [handleToggle_of_idle m.state hu hidle]
        rw [hidle] at h
        simp only [Bool.false_eq_true, if_false] at h
        simp [h]
      · have hsame : handleToggle m.state = m.state := by simp [handleToggle, hu]
        rw [hsame]
        exact h
  | render => exact h
  | settled i result =>
    cases hi : m.state.inFlight[i]? with
    | none =>
      rw [show step m (Event.settled i result) = m by simp [step, hi]]
      exact h
    | some newLovedState =>
      have hlt : i < m.state.inFlight.length := by
        by_contra hge
        rw [List.getElem?_eq_none (Nat.le_of_not_lt hge)] at hi
        exact Option.noConfusion hi
      have hlen : m.state.inFlight.length = 1 := by
        cases hl : m.state.loading
        · rw [hl] at h
          simp only [Bool.false_eq_true, if_false] at h
          omega
        · rw [hl] at h
          simpa using h
      rw [show (step m (Event.settled i result)).state
          = { toggleSettled newLovedState result m.state with
              inFlight := m.state.inFlight.eraseIdx i } by
        simp [step, hi]]
      have hzero : i = 0 := by omega
      simp [toggleSettled, List.length_eraseIdx, hzero, hlen]
  | loaded data => simpa [step, voteLoaded, updateItem] using h
  | preload p => simpa [step, preloaded] using h

/-- Where every click is handled by a handler whose render is up to date, a toggle request is
in flight exactly while `loading` is true, and there is never more than one. -/
theorem one_request_when_rendered (events : List Event) :
    ∀ m : Mounted, Consistent m.state → clicksRendered m events = true →
      Consistent (events.foldl step m).state
      ∧ (events.foldl step m).state.inFlight.length ≤ 1 := by
  induction events with
  | nil =>
    intro m h _
    refine ⟨h, ?_⟩
    unfold Consistent at h
    rw [List.foldl_nil, h]
    split_ifs <;> omega
  | cons e events ih =>
    intro m h hrun
    simp only [clicksRendered, Bool.and_eq_true] at hrun
    have hclick : e = Event.click → m.captured = capture m.state := by
      intro he
      subst he
      simpa using hrun.1
    exact ih (step m e) (consistent_step m e h hclick) hrun.2

/-- C9, at three clicks handled before the component renders again.  The button shows count 5,
not loved, a known user, nothing in flight.  After the first click `loading` is set and one
request is in flight; the second and the third click are handled by the same handler, whose
`loading` is the `false` of the first render, so neither is ignored: three requests are in
flight and the count shows 8.  With a render after the first click the second click is
ignored. -/
theorem handleToggle_stale_guard :
    (step (rendered sampleWidget) Event.click).state.loading = true
    ∧ (step (rendered sampleWidget) Event.click).state.inFlight = [true]
    ∧ (step (rendered sampleWidget) Event.click).captured.loading = false
    ∧ (step (step (rendered sampleWidget) Event.click) Event.click).state.inFlight
        = [true, true]
    ∧ (step (step (rendered sampleWidget) Event.click) Event.click).state.count = 7
    ∧ ([Event.click, Event.click, Event.click].foldl step (rendered sampleWidget)).state.inFlight
        = [true, true, true]
    ∧ ([Event.click, Event.click, Event.click].foldl step (rendered sampleWidget)).state.count
        = 8
    ∧ ([Event.click, Event.render, Event.click].foldl step (rendered sampleWidget)).state.inFlight
        = [true]
    ∧ ([Event.click, Event.render, Event.click].foldl step (rendered sampleWidget)).state.count
        = 6 := by
  decide

end Miyomi
